import Mathlib

/-!
Shallow embedding of the core of the aerospike-admin repository
(lib/client/util.py and the watch machinery of lib/view.py), together with
theorems settling the specification claims C1-C10.

Python strings are embedded as lists of characters; Python dicts as
association lists with overwrite-on-set semantics; raised exceptions either
as `Except` results (where the source lets them escape) or as explicit
`Option`/match handling (where the source catches them).
-/

abbrev Chars := List Char

deriving instance DecidableEq for Except

/-- A Python exception value carried through the info-parsing layer as data
(the per-node captured failures the callers hand to these functions). -/
inductive PyExc where
  | err (msg : String)
  deriving DecidableEq, Repr

/-- An argument to the info parsing functions: either an info-protocol string
or a captured exception instance. -/
inductive InfoVal where
  | str (s : String)
  | exc (e : PyExc)
  deriving DecidableEq, Repr

/-- An uncaught Python runtime error escaping to the caller. -/
inductive PyErr where
  | indexError
  deriving DecidableEq, Repr

/-- Result of info_to_dict: a dict, or the exception argument passed through
unchanged. -/
inductive InfoResult where
  | dict (d : List (Chars × Chars))
  | exc (e : PyExc)
  deriving DecidableEq, Repr

/-- Result of info_to_dict_multi_level: a dict of dicts, or the exception
argument passed through unchanged. -/
inductive MultiResult where
  | dict (d : List (Chars × List (Chars × Chars)))
  | exc (e : PyExc)
  deriving DecidableEq, Repr

/-- re.split with a single literal delimiter character: `re.split(d, s)`. -/
def splitOnChar (d : Char) : Chars → List Chars
  | [] => [[]]
  | c :: cs =>
    if c = d then [] :: splitOnChar d cs
    else
      match splitOnChar d cs with
      | [] => [[c]]
      | p :: ps => (c :: p) :: ps

/-- info_to_list (lib/client/util.py line 119): Exception inputs give the
empty list, otherwise the string is split on the delimiter. -/
def info_to_list (v : InfoVal) (d : Char) : List Chars :=
  match v with
  | .exc _ => []
  | .str s => splitOnChar d s.data

/-- First element of a split tuple, `x[0]`; re.split never returns an empty
list so the default is never used. -/
def tupleFirst (t : List Chars) : Chars := t.headD []

/-- Second element of a split tuple, `v[1]`; `none` models the IndexError
raised when the tuple has fewer than two elements. -/
def tupleSecond (t : List Chars) : Option Chars := t.get? 1

/-- Python `_value_list[-1] = _value_list[-1] + ext` on a nonempty list;
the empty list is returned unchanged (the source wraps the assignment in
try/except and passes on IndexError). -/
def appendToLast : List Chars → Chars → List Chars
  | [], _ => []
  | [x], ext => [x ++ ext]
  | x :: y :: rest, ext => x :: appendToLast (y :: rest) ext

/-- One step of the non-strict preprocessing loop of info_to_dict
(lines 51-61): a fragment containing "=" is appended as a new item, any
other fragment is merged onto the last item with the field delimiter (or
dropped when there is no previous item). -/
def mergeStep (d : Char) (acc : List Chars) (v : Chars) : List Chars :=
  if v.contains '=' then acc ++ [v]
  else
    match acc with
    | [] => []
    | _ :: _ => appendToLast acc (d :: v)

/-- The whole non-strict preprocessing loop of info_to_dict (lines 51-61). -/
def mergeFields (d : Char) (frags : List Chars) : List Chars :=
  frags.foldl (mergeStep d) []

/-- Strict lexicographic comparison of Python strings by code point. -/
def charsLt : Chars → Chars → Bool
  | [], [] => false
  | [], _ :: _ => true
  | _ :: _, [] => false
  | a :: as, b :: bs => if a < b then true else if b < a then false else charsLt as bs

/-- Insert a string into an ascending list, after any equal elements. -/
def insertSorted (x : Chars) : List Chars → List Chars
  | [] => [x]
  | y :: ys => if charsLt x y then x :: y :: ys else y :: insertSorted x ys

/-- Python `sorted` on a list of strings (ascending lexicographic order). -/
def sortChars (l : List Chars) : List Chars :=
  l.foldl (fun acc x => insertSorted x acc) []

/-- Python `d.join(pieces)` for a one-character separator. -/
def joinWith (d : Char) : List Chars → Chars
  | [] => []
  | [x] => x
  | x :: y :: rest => x ++ d :: joinWith d (y :: rest)

/-- The value computed for one groupby group (lines 67-70): `map` of `v[1]`
over the group raises if any tuple is short (then the whole group is
dropped, modelled by `none`); otherwise values are sorted and comma-joined
when there is more than one, and the single value is kept unwrapped. -/
def runValue (run : List (List Chars)) : Option Chars :=
  match run.mapM tupleSecond with
  | none => none
  | some vs => some (if vs.length > 1 then joinWith ',' (sortChars vs) else vs.headD [])

/-- Worker for groupRuns: `key` is the current group key and `acc` holds the
current group's members in reverse. -/
def groupRunsGo (key : Chars) (acc : List (List Chars)) :
    List (List Chars) → List (List (List Chars))
  | [] => [acc.reverse]
  | u :: us =>
    if tupleFirst u == key then groupRunsGo key (u :: acc) us
    else acc.reverse :: groupRunsGo (tupleFirst u) [u] us

/-- itertools.groupby by `x[0]`: maximal runs of consecutive tuples sharing
their first element. -/
def groupRuns : List (List Chars) → List (List (List Chars))
  | [] => []
  | t :: ts => groupRunsGo (tupleFirst t) [t] ts

/-- Python dict assignment `d[k] = v`: overwrite the existing entry for the
key, otherwise add a new one. -/
def dictSet (d : List (Chars × Chars)) (k v : Chars) : List (Chars × Chars) :=
  if d.any (fun p => p.1 == k) then d.map (fun p => if p.1 == k then (k, v) else p)
  else d ++ [(k, v)]

/-- Python dict lookup returning `none` for a missing key. -/
def dictGet (d : List (Chars × Chars)) (k : Chars) : Option Chars :=
  (d.find? (fun p => p.1 == k)).map Prod.snd

/-- The body of info_to_dict on a nonempty string (lines 33-78): split on
the field delimiter, optionally run the non-strict merge loop, split every
field on "=", group consecutive equal keys, and build the dict. -/
def infoToDictCore (chars : Chars) (d : Char) (ignoreNoDelim : Bool) :
    List (Chars × Chars) :=
  let tmp := splitOnChar d chars
  let vlist := if ignoreNoDelim then tmp else mergeFields d tmp
  let tuples := vlist.map (fun sp => splitOnChar '=' sp)
  (groupRuns tuples).foldl
    (fun acc run =>
      match runValue run with
      | none => acc
      | some v => dictSet acc (tupleFirst (run.headD [])) v) []

/-- info_to_dict (lib/client/util.py lines 23-78). -/
def info_to_dict (v : InfoVal) (d : Char) (ignoreNoDelim : Bool) : InfoResult :=
  match v with
  | .str s => if s.data.isEmpty then .dict [] else .dict (infoToDictCore s.data d ignoreNoDelim)
  | .exc e => .exc e

/-- Python dict assignment for the multi-level result dict. -/
def multiSet (d : List (Chars × List (Chars × Chars))) (k : Chars)
    (v : List (Chars × Chars)) : List (Chars × List (Chars × Chars)) :=
  if d.any (fun p => p.1 == k) then d.map (fun p => if p.1 == k then (k, v) else p)
  else d ++ [(k, v)]

/-- info_to_dict_multi_level (lib/client/util.py lines 81-109): split on the
section delimiter, parse each section with info_to_dict, and re-key every
section dict by its value under each matching key name. -/
def info_to_dict_multi_level (v : InfoVal) (keyname : List Chars) (d1 d2 : Char)
    (ignoreNoDelim : Bool) : MultiResult :=
  match v with
  | .exc e => .exc e
  | .str s =>
    if s.data.isEmpty then .dict []
    else
      .dict ((splitOnChar d1 s.data).foldl
        (fun acc piece =>
          match info_to_dict (.str (String.mk piece)) d2 ignoreNoDelim with
          | .exc _ => acc
          | .dict values =>
            if values.isEmpty then acc
            else
              keyname.foldl
                (fun acc2 k =>
                  match dictGet values k with
                  | none => acc2
                  | some kv => multiSet acc2 kv values) acc) [])

/-- Python `s.strip()`. -/
def trimList (l : Chars) : Chars :=
  ((l.dropWhile Char.isWhitespace).reverse.dropWhile Char.isWhitespace).reverse

/-- The character scan of parse_peers_string (lines 158-178) with the default
delimiter "," and bracket sets "[" / "]". The bracket stack is represented
by its depth; popping at depth zero is the uncaught IndexError of
`b_stack.pop()` on an empty list. -/
def peersLoop : Chars → Nat → Chars → List Chars → Except PyErr (List Chars)
  | [], _, cur, o => .ok (if cur.isEmpty then o else o ++ [trimList cur])
  | c :: cs, depth, cur, o =>
    if c = ',' then
      if 0 < depth then peersLoop cs depth (cur ++ [c]) o
      else peersLoop cs 0 [] (o ++ [trimList cur])
    else if c = '[' then peersLoop cs (depth + 1) (cur ++ [c]) o
    else if c = ']' then
      match depth with
      | 0 => .error .indexError
      | d + 1 => peersLoop cs d (cur ++ [c]) o
    else peersLoop cs depth (cur ++ [c]) o

/-- The effective character list parse_peers_string scans: the input is
stripped, and a single pair of outer brackets enclosing the whole string is
removed (lines 149-155). -/
def peersEffective (s : String) : Chars :=
  let t := trimList s.data
  if t.isEmpty then []
  else if t.head? == some '[' && t.getLast? == some ']' then (t.drop 1).dropLast
  else t

/-- parse_peers_string (lib/client/util.py lines 145-179) with its default
arguments; the result is `Except` because the bracket-stack pop can raise. -/
def parse_peers_string (v : InfoVal) : Except PyErr (List Chars) :=
  match v with
  | .exc _ => .ok []
  | .str s =>
    let t := peersEffective s
    if t.isEmpty then .ok [] else peersLoop t 0 [] []

/-- Guard deciding whether the peers scan ever pops an empty bracket stack:
true when every closing bracket is matched by an earlier unmatched opening
bracket, starting from the given depth. -/
def popSafe : Nat → Chars → Bool
  | _, [] => true
  | depth, c :: cs =>
    if c = '[' then popSafe (depth + 1) cs
    else if c = ']' then
      match depth with
      | 0 => false
      | d + 1 => popSafe d cs
    else popSafe depth cs

/-- concurrent_map (lib/client/util.py lines 182-208): one worker per index
writes `func(data[i])` into its own slot of a result list preinitialised
with None. A worker whose operation raises dies inside its thread: the
exception never reaches the caller and the slot keeps its initial None.
Slots are disjoint and joined before returning, so the outcome is this
deterministic per-index map. -/
def concurrent_map {α β ε : Type} (func : α → Except ε β) (data : List α) :
    List (Option β) :=
  data.map (fun d =>
    match func d with
    | .ok v => some v
    | .error _ => none)

/-- The cache dict of a `cached` instance: argument tuple to
(value, end-of-life instant). Wall-clock instants are embedded as
rationals. -/
def Cache (α β : Type) := α → Option (β × ℚ)

/-- Python dict assignment `self.cache[key] = (value, time() + self.ttl)`
specialised to the function model of the dict. -/
def cacheSet {α β : Type} [DecidableEq α] (c : Cache α β) (k : α) (p : β × ℚ) :
    Cache α β :=
  fun x => if x = k then some p else c x

/-- A `cached` instance (lib/client/util.py lines 211-233): the wrapped
function, the ttl, and the cache dict. -/
structure Cached (α β : Type) where
  func : α → β
  ttl : ℚ
  cache : Cache α β

/-- cached.__getitem__ (lines 223-230) at wall-clock instant `now`: a live
entry (eol strictly in the future) is returned as is; otherwise the wrapped
function is invoked and stored with eol = now + ttl. The Bool records
whether the wrapped function was invoked by this call. -/
def cachedGetitem {α β : Type} [DecidableEq α] (c : Cached α β) (key : α)
    (now : ℚ) : β × Cached α β × Bool :=
  match c.cache key with
  | some (v, eol) =>
    if now < eol then (v, c, false)
    else
      let nv := c.func key
      (nv, { c with cache := cacheSet c.cache key (nv, now + c.ttl) }, true)
  | none =>
    let nv := c.func key
    (nv, { c with cache := cacheSet c.cache key (nv, now + c.ttl) }, true)

/-- The escape-introducer character of the ANSI tokenizer. -/
def escChar : Char := '\x1b'

/-- The inner consume loop of group_output (lib/view.py lines 1146-1152):
after an escape introducer, characters are consumed up to and including the
first 'm' (or to the end of the string). Returns the consumed characters
and the rest. -/
def takeEsc : Chars → Chars × Chars
  | [] => ([], [])
  | c :: cs =>
    if c = 'm' then ([c], cs)
    else
      let (g, r) := takeEsc cs
      (c :: g, r)

theorem takeEsc_snd_length_le (cs : Chars) : (takeEsc cs).2.length ≤ cs.length := by
  induction cs with
  | nil => simp [takeEsc]
  | cons c cs ih =>
    by_cases h : c = 'm'
    · simp [takeEsc, h]
    · simpa [takeEsc, h] using Nat.le_succ_of_le ih

/-- CliView.group_output (lib/view.py lines 1139-1157): tokenize a rendered
text block into single characters and whole escape sequences. -/
def group_output : Chars → List Chars
  | [] => []
  | c :: cs =>
    if c = escChar then (c :: (takeEsc cs).1) :: group_output (takeEsc cs).2
    else [c] :: group_output cs
termination_by l => l.length
decreasing_by
  · simp only [List.length_cons]
    exact Nat.lt_succ_of_le (takeEsc_snd_length_le cs)
  · simp

/-- Modelled from the spec: the terminal module (not under src/) supplies the
inverse-video open sequence used to mark changed regions. -/
def inverseSeq : Chars := [escChar, '[', '7', 'm']

/-- Modelled from the spec: the terminal module's inverse-video close
sequence. -/
def uninverseSeq : Chars := [escChar, '[', '2', '7', 'm']

/-- Modelled from the spec: the terminal module's reset sequence that closes
a highlight left open at stream end. -/
def resetSeq : Chars := [escChar, '[', '0', 'm']

/-- Python `'\x1b' in group`: whether a token is (or contains) an escape
sequence. -/
def isEscTok (t : Chars) : Bool := t.contains escChar

/-- The state of `CliView.peekable(next_peeked, next_iterator)` as the watch
diff consumes it (lib/view.py lines 1159-1164): the pushback list
`next_peeked`, the value the suspended generator has already pulled from the
underlying token iterator but not yet yielded (it drains `peeked` first),
and the tokens the underlying iterator has not produced yet. -/
structure NextStream where
  peeked : List Chars
  held : Option Chars
  remaining : List Chars
  deriving DecidableEq, Repr

/-- One `next()` on the peekable generator. With a held value, pushed-back
tokens are yielded first, then the held value. With no held value the
generator must pull from the underlying iterator before it looks at
`peeked` again: when the iterator is exhausted the generator finishes and
any pushed-back token is silently lost. -/
def NextStream.pull : NextStream → Option (Chars × NextStream)
  | ⟨p :: ps, some v, rem⟩ => some (p, ⟨ps, some v, rem⟩)
  | ⟨[], some v, rem⟩ => some (v, ⟨[], none, rem⟩)
  | ⟨p :: ps, none, r :: rs⟩ => some (p, ⟨ps, some r, rs⟩)
  | ⟨[], none, r :: rs⟩ => some (r, ⟨[], none, rs⟩)
  | ⟨_, none, []⟩ => none

/-- `next_peeked.append(next_group)`: push a just-consumed token back. -/
def NextStream.push (s : NextStream) (t : Chars) : NextStream :=
  ⟨s.peeked ++ [t], s.held, s.remaining⟩

/-- Number of tokens buffered or still to come, used as the walk measure. -/
def NextStream.size (s : NextStream) : Nat :=
  s.peeked.length + (if s.held.isSome then 1 else 0) + s.remaining.length

theorem NextStream.pull_size {s : NextStream} {t : Chars} {s2 : NextStream}
    (h : s.pull = some (t, s2)) : s2.size < s.size := by
  rcases s with ⟨peeked, held, remaining⟩
  rcases peeked with _ | ⟨p, ps⟩ <;> rcases held with _ | v <;>
    rcases remaining with _ | ⟨r, rs⟩ <;>
    simp only [NextStream.pull, Option.some.injEq, Prod.mk.injEq] at h <;>
    try exact h.elim
  all_goals obtain ⟨h1, h2⟩ := h
  all_goals subst h2
  all_goals simp [NextStream.size]

/-- The inner `for next_group in next_iterator` walk of CliView.watch
(lib/view.py lines 1216-1241) against one visible previous token: emits
current-stream escape tokens unchanged, pushes a newline back when the
previous token is not a newline, closes the highlight on a visible match,
opens it on a visible mismatch, and keeps consuming while the previous
token is a newline and the current one is not. Returns the emitted text,
the highlight flag, and the stream state left for the next walk. -/
def innerWalk (pg : Chars) (hl : Bool) (s : NextStream) : Chars × Bool × NextStream :=
  match h : s.pull with
  | none => ([], hl, s)
  | some (n, s1) =>
    if isEscTok n then
      let r := innerWalk pg hl s1
      (n ++ r.1, r.2.1, r.2.2)
    else if n = ['\n'] then
      if pg ≠ ['\n'] then ([], hl, s1.push n)
      else ((if hl then uninverseSeq else []) ++ n, false, s1)
    else if n = pg then
      ((if hl then uninverseSeq else []) ++ n, false, s1)
    else
      let pre := if hl then [] else inverseSeq
      if pg = ['\n'] then
        let r := innerWalk pg true s1
        (pre ++ n ++ r.1, r.2.1, r.2.2)
      else (pre ++ n, true, s1)
termination_by s.size
decreasing_by
  · exact NextStream.pull_size h
  · exact NextStream.pull_size h

/-- The outer `for prev_group in prev_iterator` walk of CliView.watch
(lines 1211-1241): previous-stream escape tokens are skipped, every visible
previous token drives one inner walk. -/
def outerWalk (hl : Bool) : List Chars → NextStream → Chars × Bool × NextStream
  | [], s => ([], hl, s)
  | p :: ps, s =>
    if isEscTok p then outerWalk hl ps s
    else
      let r1 := innerWalk p hl s
      let r2 := outerWalk r1.2.1 ps r1.2.2
      (r1.1 ++ r2.1, r2.2.1, r2.2.2)

/-- The trailing `for next_group in next_iterator` loop of CliView.watch
(lines 1243-1253): every remaining current token that is not a space or a
newline extends or opens a highlight; spaces and newlines close it. -/
def tailWalk (hl : Bool) (s : NextStream) : Chars × Bool :=
  match h : s.pull with
  | none => ([], hl)
  | some (n, s1) =>
    if n = [' '] ∨ n = ['\n'] then
      let r := tailWalk false s1
      ((if hl then uninverseSeq else []) ++ n ++ r.1, r.2)
    else
      let r := tailWalk true s1
      ((if hl then [] else inverseSeq) ++ n ++ r.1, r.2)
termination_by s.size
decreasing_by
  · exact NextStream.pull_size h
  · exact NextStream.pull_size h

/-- The whole diff-highlight computation of one CliView.watch iteration
(lib/view.py lines 1204-1259): tokenize both frames, run the synchronised
walk, treat the remaining current tokens as changed, and close any open
highlight with a reset sequence. -/
def diffOutput (previous output : Chars) : Chars :=
  let r1 := outerWalk false (group_output previous) ⟨[], none, group_output output⟩
  let r2 := tailWalk r1.2.1 r1.2.2
  r1.1 ++ r2.1 ++ (if r2.2 then resetSeq else [])

/-- Exceptions that can surface inside one CliView.watch iteration: an
external interrupt, a SystemExit, or an arbitrary error raised by the
watched render call `ctrl.execute`. -/
inductive Exn where
  | keyboardInterrupt
  | systemExit
  | renderError (msg : String)
  deriving DecidableEq, Repr

/-- What one iteration of the watch loop does: completes normally (render,
print, sleep all return), the render call raises, or the sleep is cut by a
keyboard interrupt. -/
inductive IterEv where
  | normal
  | renderRaise (e : Exn)
  | sleepInterrupt
  deriving DecidableEq, Repr

/-- A Python computation over the interpreter state relevant to watch: the
Bool is whether the real stdout stream is installed (`sys.stdout`); the
result is normal return or a raised exception. -/
def PyComp : Type := Bool → Bool × Except Exn Unit

/-- Assignment to `sys.stdout`. -/
def pySetStdout (b : Bool) : PyComp := fun _ => (b, .ok ())

/-- Sequencing of two Python statements: the second runs only when the
first returned normally. -/
def pySeq (m1 m2 : PyComp) : PyComp := fun s =>
  match m1 s with
  | (s1, .ok _) => m2 s1
  | (s1, .error e) => (s1, .error e)

/-- A statement whose outcome is already known and does not touch state. -/
def pyLift (r : Except Exn Unit) : PyComp := fun s => (s, r)

/-- The `except (KeyboardInterrupt, SystemExit): return` clause of
CliView.watch (lib/view.py line 1283): those two exceptions turn into a
normal return, anything else keeps propagating. -/
def pyCatchInterrupt (m : PyComp) : PyComp := fun s =>
  match m s with
  | (s1, .error .keyboardInterrupt) => (s1, .ok ())
  | (s1, .error .systemExit) => (s1, .ok ())
  | r => r

/-- Python try/finally: the finalizer runs whatever the body did, and the
body's outcome is reported unless the finalizer itself raised. -/
def pyFinally (m fin : PyComp) : PyComp := fun s =>
  let r := m s
  let rf := fin r.1
  match rf.2 with
  | .error e => (rf.1, .error e)
  | .ok _ => (rf.1, r.2)

/-- The `while True` loop of CliView.watch (lib/view.py lines 1197-1281)
driven by one event per iteration: a render failure raises out of the loop,
reaching the iteration budget breaks out of it (num_iterations = 0 means
unbounded, like the falsy Python default), and an interrupt during the
sleep raises KeyboardInterrupt. An exhausted event list cuts the loop off
as a break would. -/
def loopRun : List IterEv → Nat → Nat → Except Exn Unit
  | [], _, _ => .ok ()
  | ev :: rest, numIter, count =>
    match ev with
    | .renderRaise e => .error e
    | .sleepInterrupt =>
      if numIter ≠ 0 ∧ numIter ≤ count then .ok ()
      else .error .keyboardInterrupt
    | .normal =>
      if numIter ≠ 0 ∧ numIter ≤ count then .ok ()
      else loopRun rest numIter (count + 1)

/-- CliView.watch (lib/view.py lines 1192-1287) from the point where stdout
is captured: the saved `real_stdout` is the stream installed at entry; the
try body redirects stdout and runs the loop; KeyboardInterrupt and
SystemExit are caught and become a plain return; the finally clause
restores the saved stream on every exit path. -/
def watch (events : List IterEv) (numIter : Nat) : PyComp := fun s0 =>
  pyFinally
    (pyCatchInterrupt
      (pySeq (pySetStdout false) (pyLift (loopRun events numIter 1))))
    (pySetStdout s0)
    s0

theorem takeEsc_append (cs : Chars) : (takeEsc cs).1 ++ (takeEsc cs).2 = cs := by
  induction cs with
  | nil => simp [takeEsc]
  | cons c cs ih =>
    by_cases h : c = 'm'
    · simp [takeEsc, h]
    · simp [takeEsc, h, ih]

theorem takeEsc_no_m (cs : Chars) : ∀ c ∈ (takeEsc cs).1.dropLast, c ≠ 'm' := by
  induction cs with
  | nil => simp [takeEsc]
  | cons c cs ih =>
    by_cases h : c = 'm'
    · simp [takeEsc, h]
    · have h1 : (takeEsc (c :: cs)).1 = c :: (takeEsc cs).1 := by simp [takeEsc, h]
      rw [h1]
      cases hg : (takeEsc cs).1 with
      | nil => simp
      | cons y ys =>
        rw [List.dropLast_cons_of_ne_nil (by simp)]
        intro x hx
        rcases List.mem_cons.mp hx with rfl | hx2
        · exact h
        · exact ih x (by rw [hg]; exact hx2)

theorem takeEsc_last (cs : Chars) :
    (takeEsc cs).1.getLast? = some 'm' ∨ (takeEsc cs).2 = [] := by
  induction cs with
  | nil => right; simp [takeEsc]
  | cons c cs ih =>
    by_cases h : c = 'm'
    · left; simp [takeEsc, h]
    · have h1 : (takeEsc (c :: cs)).1 = c :: (takeEsc cs).1 := by simp [takeEsc, h]
      have h2 : (takeEsc (c :: cs)).2 = (takeEsc cs).2 := by simp [takeEsc, h]
      rcases ih with hm | hr
      · left
        rw [h1]
        cases hg : (takeEsc cs).1 with
        | nil => rw [hg] at hm; simp at hm
        | cons y ys => rw [List.getLast?_cons_cons]; rw [hg] at hm; exact hm
      · right; rw [h2]; exact hr

theorem escTok_no_m (cs : Chars) :
    ∀ c ∈ (escChar :: (takeEsc cs).1).dropLast, c ≠ 'm' := by
  cases hg : (takeEsc cs).1 with
  | nil => simp
  | cons y ys =>
    rw [List.dropLast_cons_of_ne_nil (by simp)]
    intro c hc
    rcases List.mem_cons.mp hc with rfl | hc2
    · decide
    · exact takeEsc_no_m cs c (by rw [hg]; exact hc2)

theorem escTok_last (cs : Chars) (h : (takeEsc cs).2 ≠ []) :
    (escChar :: (takeEsc cs).1).getLast? = some 'm' := by
  rcases takeEsc_last cs with hm | hr
  · cases hg : (takeEsc cs).1 with
    | nil => rw [hg] at hm; simp at hm
    | cons y ys => rw [List.getLast?_cons_cons]; rw [hg] at hm; exact hm
  · exact absurd hr h

theorem group_output_esc (cs : Chars) :
    group_output (escChar :: cs) =
      (escChar :: (takeEsc cs).1) :: group_output (takeEsc cs).2 := by
  simp [group_output]

theorem group_output_char {c : Char} (cs : Chars) (h : c ≠ escChar) :
    group_output (c :: cs) = [c] :: group_output cs := by
  simp [group_output, h]

theorem group_output_flatten (s : Chars) : (group_output s).flatten = s := by
  induction s using group_output.induct with
  | case1 => simp [group_output]
  | case2 cs ih => rw [group_output_esc]; simp [ih, takeEsc_append]
  | case3 c cs h ih => rw [group_output_char cs h]; simp [ih]

/-- C7: tokenizing with group_output and re-concatenating all token text
reproduces the input exactly, and an escape-introduced token is one single
unit: the terminating 'm' never occurs in a token's interior, and every
escape token other than possibly the final token of the stream ends with
the terminating 'm'. -/
theorem c7_tokenizer_roundtrip (s : Chars) :
    (group_output s).flatten = s ∧
    (∀ t ∈ (group_output s).dropLast, t.head? = some escChar →
      (∀ c ∈ t.dropLast, c ≠ 'm') ∧ t.getLast? = some 'm') ∧
    (∀ t, (group_output s).getLast? = some t → t.head? = some escChar →
      ∀ c ∈ t.dropLast, c ≠ 'm') := by
  induction s using group_output.induct with
  | case1 => exact ⟨by simp [group_output], by simp [group_output], by simp [group_output]⟩
  | case2 cs ih =>
    obtain ⟨ihj, ihd, ihl⟩ := ih
    refine ⟨group_output_flatten _, ?_, ?_⟩
    · rw [group_output_esc]
      cases hr : group_output (takeEsc cs).2 with
      | nil => simp
      | cons r0 rs =>
        rw [List.dropLast_cons_of_ne_nil (by simp)]
        intro t ht hhead
        rcases List.mem_cons.mp ht with rfl | ht2
        · refine ⟨escTok_no_m cs, escTok_last cs ?_⟩
          intro hnil
          rw [hnil] at hr
          simp [group_output] at hr
        · rw [hr] at ihd
          exact ihd t ht2 hhead
    · rw [group_output_esc]
      cases hr : group_output (takeEsc cs).2 with
      | nil =>
        intro t ht hhead
        have : t = escChar :: (takeEsc cs).1 := by simpa using ht.symm
        rw [this]
        exact escTok_no_m cs
      | cons r0 rs =>
        intro t ht hhead
        rw [List.getLast?_cons_cons] at ht
        rw [hr] at ihl
        exact ihl t ht hhead
  | case3 c cs h ih =>
    obtain ⟨ihj, ihd, ihl⟩ := ih
    refine ⟨group_output_flatten _, ?_, ?_⟩
    · rw [group_output_char cs h]
      cases hr : group_output cs with
      | nil => simp
      | cons r0 rs =>
        rw [List.dropLast_cons_of_ne_nil (by simp)]
        intro t ht hhead
        rcases List.mem_cons.mp ht with rfl | ht2
        · exact absurd (by simpa using hhead) h
        · rw [hr] at ihd
          exact ihd t ht2 hhead
    · rw [group_output_char cs h]
      cases hr : group_output cs with
      | nil =>
        intro t ht hhead
        have : t = [c] := by simpa using ht.symm
        rw [this] at hhead
        exact absurd (by simpa using hhead) h
      | cons r0 rs =>
        intro t ht hhead
        rw [List.getLast?_cons_cons] at ht
        rw [hr] at ihl
        exact ihl t ht hhead

/-- C7 witness: a concrete run of the theorem at the input "\x1bma": the
round trip holds and the non-final escape token "\x1bm" ends with 'm'. -/
theorem c7_tokenizer_roundtrip_witness :
    (group_output [escChar, 'm', 'a']).flatten = [escChar, 'm', 'a'] ∧
    ([escChar, 'm'] : Chars).getLast? = some 'm' := by
  refine ⟨(c7_tokenizer_roundtrip [escChar, 'm', 'a']).1, ?_⟩
  exact ((c7_tokenizer_roundtrip [escChar, 'm', 'a']).2.1 [escChar, 'm']
    (by simp [group_output, takeEsc, escChar]) (by decide)).2

/-- C10: an Exception argument flows through the parsers as data:
info_to_dict and info_to_dict_multi_level return the exception object
unchanged instead of a mapping, and info_to_list and parse_peers_string
return the empty list. -/
theorem c10_exception_passthrough (e : PyExc) (d d1 d2 : Char) (ks : List Chars)
    (ig : Bool) :
    info_to_dict (.exc e) d ig = .exc e ∧
    info_to_dict_multi_level (.exc e) ks d1 d2 ig = .exc e ∧
    info_to_list (.exc e) d = [] ∧
    parse_peers_string (.exc e) = .ok [] :=
  ⟨rfl, rfl, rfl, rfl⟩

/-- C1 counterexample: the failing node's slot does not hold a Failure value
carrying the error. At nodes [1, 2, 3] with the operation raising at node 2,
the result is [some 2, none, some 4]: the failing slot is the bare None
placeholder, and an operation raising a different error gives the identical
result list, so no entry carries the raised error at all. -/
theorem c1_counterexample :
    concurrent_map
        (fun n : Nat => if n = 2 then (Except.error "boom" : Except String Nat)
          else Except.ok (n + 1)) [1, 2, 3] =
      [some 2, none, some 4] ∧
    concurrent_map
        (fun n : Nat => if n = 2 then (Except.error "crash" : Except String Nat)
          else Except.ok (n + 1)) [1, 2, 3] =
      concurrent_map
        (fun n : Nat => if n = 2 then (Except.error "boom" : Except String Nat)
          else Except.ok (n + 1)) [1, 2, 3] := by
  exact ⟨rfl, rfl⟩

/-- C1 (amended): concurrent_map returns exactly one entry per requested
index; a node whose operation returns normally gets its result, a node
whose operation raises gets the initial None placeholder (the raised error
is discarded, not stored), and a failure neither propagates to the caller
nor affects any sibling entry. -/
theorem c1_fanout_isolation {α β ε : Type} (func : α → Except ε β) (data : List α) :
    (concurrent_map func data).length = data.length ∧
    ∀ (i : Nat) (x : α), data[i]? = some x →
      ((∀ v, func x = .ok v → (concurrent_map func data)[i]? = some (some v)) ∧
       (∀ e, func x = .error e → (concurrent_map func data)[i]? = some (none : Option β))) := by
  refine ⟨by simp [concurrent_map], ?_⟩
  intro i x hx
  constructor
  · intro v hv
    simp [concurrent_map, List.getElem?_map, hx, hv]
  · intro e he
    simp [concurrent_map, List.getElem?_map, hx, he]

/-- C1 witness: the amended theorem applied at nodes [1, 2, 3] with the
operation raising at node 2. -/
theorem c1_fanout_isolation_witness :
    (concurrent_map
        (fun n : Nat => if n = 2 then (Except.error "boom" : Except String Nat)
          else Except.ok (n + 1)) [1, 2, 3])[1]? = some none ∧
    (concurrent_map
        (fun n : Nat => if n = 2 then (Except.error "boom" : Except String Nat)
          else Except.ok (n + 1)) [1, 2, 3])[0]? = some (some 2) := by
  constructor
  · exact ((c1_fanout_isolation _ [1, 2, 3]).2 1 2 rfl).2 "boom" (by decide)
  · exact ((c1_fanout_isolation _ [1, 2, 3]).2 0 1 rfl).1 2 (by decide)

theorem cacheSet_self {α β : Type} [DecidableEq α] (c : Cache α β) (k : α)
    (p : β × ℚ) : cacheSet c k p k = some p := by
  simp [cacheSet]

/-- C5: the TTL memo cache. First conjunct: starting with no live entry for
the key, the first call invokes the wrapped function and a second call
before the stored expiry instant does not invoke it again and returns the
same value. Second conjunct: a call at or after the stored expiry instant
never returns the stored value as a cache hit: it invokes the function
again, returns the fresh result, and stores it with expiry = now + ttl. -/
theorem c5_ttl_cache {α β : Type} [DecidableEq α] (c0 : Cached α β) (key : α)
    (t1 t2 now : ℚ) :
    ((∀ v eol, c0.cache key = some (v, eol) → eol ≤ t1) →
      (cachedGetitem c0 key t1).2.2 = true ∧
      (cachedGetitem c0 key t1).1 = c0.func key ∧
      (t2 < t1 + c0.ttl →
        (cachedGetitem (cachedGetitem c0 key t1).2.1 key t2).2.2 = false ∧
        (cachedGetitem (cachedGetitem c0 key t1).2.1 key t2).1 =
          (cachedGetitem c0 key t1).1)) ∧
    (∀ v eol, c0.cache key = some (v, eol) → eol ≤ now →
      (cachedGetitem c0 key now).2.2 = true ∧
      (cachedGetitem c0 key now).1 = c0.func key ∧
      (cachedGetitem c0 key now).2.1.cache key = some (c0.func key, now + c0.ttl)) := by
  constructor
  · intro hstale
    have hfirst : cachedGetitem c0 key t1 =
        (c0.func key,
         { c0 with cache := cacheSet c0.cache key (c0.func key, t1 + c0.ttl) },
         true) := by
      cases hc : c0.cache key with
      | none => simp [cachedGetitem, hc]
      | some p =>
        rcases p with ⟨v, eol⟩
        have := hstale v eol hc
        simp [cachedGetitem, hc, not_lt.mpr this]
    refine ⟨by rw [hfirst], by rw [hfirst], ?_⟩
    intro hlive
    rw [hfirst]
    simp only [cachedGetitem, cacheSet_self]
    simp [hlive]
  · intro v eol hc hexp
    have hcall : cachedGetitem c0 key now =
        (c0.func key,
         { c0 with cache := cacheSet c0.cache key (c0.func key, now + c0.ttl) },
         true) := by
      simp [cachedGetitem, hc, not_lt.mpr hexp]
    refine ⟨by rw [hcall], by rw [hcall], ?_⟩
    rw [hcall]
    exact cacheSet_self _ _ _

/-- C5 witness: the theorem applied to a fresh cache around the doubling
function, first call at time 0 with ttl 1, second call at time 1/2, and the
expiry conjunct applied to a cache holding an entry expired at time 2. -/
theorem c5_ttl_cache_witness :
    (cachedGetitem ⟨fun n : Nat => 2 * n, 1, fun _ => none⟩ 5 0).2.2 = true ∧
    (cachedGetitem (cachedGetitem ⟨fun n : Nat => 2 * n, 1, fun _ => none⟩ 5 0).2.1
      5 (1 / 2)).2.2 = false ∧
    (cachedGetitem ⟨fun n : Nat => 2 * n, 1,
        fun k => if k = 5 then some (7, 2) else none⟩ 5 2).1 = 10 := by
  have h1 := (c5_ttl_cache ⟨fun n : Nat => 2 * n, 1, fun _ => none⟩ 5 0 (1 / 2) 0).1
    (by intro v eol h; simp at h)
  have h2 := (c5_ttl_cache
      ⟨fun n : Nat => 2 * n, 1, fun k => if k = 5 then some (7, 2) else none⟩
      5 0 0 2).2 7 2 (by simp) (by norm_num)
  exact ⟨h1.1, (h1.2.2 (by norm_num)).1, h2.2.1⟩

/-- C9: every exit of the watch loop body restores the stream that was
installed at entry, and the loop's outcome is reported faithfully: an error
raised by the watched render call propagates to the caller (after the
restore), while KeyboardInterrupt, SystemExit and normal budget exhaustion
end the call with a plain return. -/
theorem c9_watch_restores (events : List IterEv) (numIter : Nat) (s0 : Bool) :
    (watch events numIter s0).1 = s0 ∧
    (∀ msg, loopRun events numIter 1 = .error (.renderError msg) →
      (watch events numIter s0).2 = .error (.renderError msg)) ∧
    (loopRun events numIter 1 = .error .keyboardInterrupt →
      (watch events numIter s0).2 = .ok ()) ∧
    (loopRun events numIter 1 = .error .systemExit →
      (watch events numIter s0).2 = .ok ()) ∧
    (loopRun events numIter 1 = .ok () →
      (watch events numIter s0).2 = .ok ()) := by
  refine ⟨?_, ?_, ?_, ?_, ?_⟩
  · cases hr : loopRun events numIter 1 with
    | ok u =>
      simp [watch, pyFinally, pyCatchInterrupt, pySeq, pySetStdout, pyLift, hr]
    | error e =>
      cases e <;>
        simp [watch, pyFinally, pyCatchInterrupt, pySeq, pySetStdout, pyLift, hr]
  · intro msg hr
    simp [watch, pyFinally, pyCatchInterrupt, pySeq, pySetStdout, pyLift, hr]
  · intro hr
    simp [watch, pyFinally, pyCatchInterrupt, pySeq, pySetStdout, pyLift, hr]
  · intro hr
    simp [watch, pyFinally, pyCatchInterrupt, pySeq, pySetStdout, pyLift, hr]
  · intro hr
    simp [watch, pyFinally, pyCatchInterrupt, pySeq, pySetStdout, pyLift, hr]

/-- C9 witness: a run whose second iteration's render call raises ends with
the original stream restored and the error propagated; a run interrupted
during the first sleep ends restored with a plain return. -/
theorem c9_watch_restores_witness :
    (watch [IterEv.normal, .renderRaise (.renderError "boom")] 0 true).1 = true ∧
    (watch [IterEv.normal, .renderRaise (.renderError "boom")] 0 true).2 =
      .error (.renderError "boom") ∧
    (watch [IterEv.sleepInterrupt] 0 false).1 = false ∧
    (watch [IterEv.sleepInterrupt] 0 false).2 = .ok () := by
  refine ⟨(c9_watch_restores _ 0 true).1, ?_, (c9_watch_restores _ 0 false).1, ?_⟩
  · exact (c9_watch_restores _ 0 true).2.1 "boom" (by decide)
  · exact (c9_watch_restores _ 0 false).2.2.1 (by decide)

/-- C2 counterexample: parse_peers_string raises IndexError (modelled as an
error result) on the input "a]b", whose closing bracket pops an empty
bracket stack; the claim that every parsing operation returns normally on
every string input is therefore false. -/
theorem c2_counterexample :
    parse_peers_string (.str "a]b") = .error .indexError := by decide

theorem peersLoop_ok (cs : Chars) : ∀ (depth : Nat) (cur : Chars) (o : List Chars),
    popSafe depth cs = true → ∃ l, peersLoop cs depth cur o = .ok l := by
  induction cs with
  | nil => exact fun depth cur o _ => ⟨_, rfl⟩
  | cons c cs ih =>
    intro depth cur o h
    by_cases hcomma : c = ','
    · subst hcomma
      have h2 : popSafe depth cs = true := by simpa [popSafe] using h
      by_cases hd : 0 < depth
      · simpa [peersLoop, hd] using ih depth (cur ++ [',']) o h2
      · have hd0 : depth = 0 := by omega
        subst hd0
        simpa [peersLoop] using ih 0 [] (o ++ [trimList cur]) h2
    · by_cases hopen : c = '['
      · subst hopen
        have h2 : popSafe (depth + 1) cs = true := by simpa [popSafe] using h
        simpa [peersLoop] using ih (depth + 1) (cur ++ ['[']) o h2
      · by_cases hclose : c = ']'
        · subst hclose
          cases depth with
          | zero => simp [popSafe] at h
          | succ dep =>
            have h2 : popSafe dep cs = true := by simpa [popSafe] using h
            simpa [peersLoop] using ih dep (cur ++ [']']) o h2
        · have h2 : popSafe depth cs = true := by simpa [popSafe, hopen, hclose] using h
          simpa [peersLoop, hcomma, hopen, hclose] using ih depth (cur ++ [c]) o h2

/-- C2 (amended): info_to_dict in both strictness modes and
info_to_dict_multi_level return a dict normally for every string input;
parse_peers_string returns normally for every input whose effective content
(after stripping and removing one pair of outer brackets) never shows a
closing bracket while the bracket stack is empty, and raises IndexError
otherwise. -/
theorem c2_parsers_return_normally (s : String) (d d1 d2 : Char) (ks : List Chars)
    (ig : Bool) :
    (∃ dd, info_to_dict (.str s) d ig = .dict dd) ∧
    (∃ dd, info_to_dict_multi_level (.str s) ks d1 d2 ig = .dict dd) ∧
    (popSafe 0 (peersEffective s) = true →
      ∃ l, parse_peers_string (.str s) = .ok l) := by
  refine ⟨?_, ?_, ?_⟩
  · by_cases h : s.data.isEmpty <;> simp [info_to_dict, h]
  · by_cases h : s.data.isEmpty <;> simp [info_to_dict_multi_level, h]
  · intro h
    by_cases he : (peersEffective s).isEmpty
    · exact ⟨[], by simp [parse_peers_string, he]⟩
    · simpa [parse_peers_string, he] using
        peersLoop_ok (peersEffective s) 0 [] [] h

/-- C2 witness: the amended theorem applied at the bracket-balanced peers
string "[a,[b,c]]". -/
theorem c2_parsers_return_normally_witness :
    popSafe 0 (peersEffective "[a,[b,c]]") = true ∧
    (∃ l, parse_peers_string (.str "[a,[b,c]]") = .ok l) := by
  refine ⟨by decide, ?_⟩
  exact (c2_parsers_return_normally "[a,[b,c]]" ';' ';' ':' [] true).2.2 (by decide)

/-- C4 counterexample: the field "a=b=c" is split on every occurrence of the
pair delimiter, not only the first: the resulting record maps "a" to "b"
(the third fragment "c" is discarded), not to "b=c". -/
theorem c4_counterexample :
    info_to_dict (.str "a=b=c") ';' true = .dict [(['a'], ['b'])] ∧
    (['b'] : Chars) ≠ ['b', '=', 'c'] := ⟨by decide, by decide⟩

theorem splitOnChar_not_mem {d : Char} {l : Chars} (h : d ∉ l) :
    splitOnChar d l = [l] := by
  induction l with
  | nil => rfl
  | cons c cs ih =>
    have hc : c ≠ d := fun hh => h (hh ▸ List.mem_cons_self c cs)
    have ih2 := ih (fun hh => h (List.mem_cons_of_mem c hh))
    simp [splitOnChar, hc, ih2]

theorem splitOnChar_append {d : Char} {l1 : Chars} (l2 : Chars) (h : d ∉ l1) :
    splitOnChar d (l1 ++ d :: l2) = l1 :: splitOnChar d l2 := by
  induction l1 with
  | nil => simp [splitOnChar]
  | cons c cs ih =>
    have hc : c ≠ d := fun hh => h (hh ▸ List.mem_cons_self c cs)
    have ih2 := ih (fun hh => h (List.mem_cons_of_mem c hh))
    simp [splitOnChar, hc, ih2]

theorem data_mk (l : Chars) : (String.mk l).data = l := rfl

theorem info_to_dict_str (l : Chars) (d : Char) (ig : Bool) :
    info_to_dict (.str (String.mk l)) d ig =
      if l.isEmpty then .dict [] else .dict (infoToDictCore l d ig) := rfl

/-- C4 (amended): a retained field-string is split on every occurrence of
the pair delimiter; the key is the first fragment and the value the second,
any later fragments being discarded: the field built from k, v1, v2 yields
key k with value v1. -/
theorem c4_split_all_occurrences (d : Char) (k v1 v2 : Chars)
    (hd : d ≠ '=') (hk1 : d ∉ k) (hk2 : '=' ∉ k) (hv1 : d ∉ v1) (hv2 : '=' ∉ v1)
    (hw1 : d ∉ v2) (hw2 : '=' ∉ v2) :
    info_to_dict (.str (String.mk (k ++ '=' :: (v1 ++ '=' :: v2)))) d true =
      .dict [(k, v1)] := by
  have hfield : d ∉ k ++ '=' :: (v1 ++ '=' :: v2) := by
    intro hmem
    rcases List.mem_append.mp hmem with h1 | h1
    · exact hk1 h1
    · rcases List.mem_cons.mp h1 with h2 | h2
      · exact hd h2
      · rcases List.mem_append.mp h2 with h3 | h3
        · exact hv1 h3
        · rcases List.mem_cons.mp h3 with h4 | h4
          · exact hd h4
          · exact hw1 h4
  have hne : (k ++ '=' :: (v1 ++ '=' :: v2)).isEmpty = false := by
    cases k <;> simp
  have hsplit : splitOnChar d (k ++ '=' :: (v1 ++ '=' :: v2)) =
      [k ++ '=' :: (v1 ++ '=' :: v2)] := splitOnChar_not_mem hfield
  have htuple : splitOnChar '=' (k ++ '=' :: (v1 ++ '=' :: v2)) = [k, v1, v2] := by
    rw [splitOnChar_append _ hk2, splitOnChar_append _ hv2,
      splitOnChar_not_mem hw2]
  rw [info_to_dict_str, if_neg (by simp [hne])]
  simp [infoToDictCore, hsplit, htuple, groupRuns, groupRunsGo, runValue,
    tupleFirst, tupleSecond, dictSet, List.mapM.loop]

/-- C4 witness: the amended theorem applied at the literal field "a=b=c". -/
theorem c4_split_all_occurrences_witness :
    info_to_dict (.str (String.mk (['a'] ++ '=' :: (['b'] ++ '=' :: ['c'])))) ';' true =
      .dict [(['a'], ['b'])] :=
  c4_split_all_occurrences ';' ['a'] ['b'] ['c'] (by decide) (by decide) (by decide)
    (by decide) (by decide) (by decide) (by decide)

theorem appendToLast_append (A : List Chars) (w ext : Chars) :
    appendToLast (A ++ [w]) ext = A ++ [w ++ ext] := by
  induction A with
  | nil => rfl
  | cons a A ih =>
    cases A with
    | nil => rfl
    | cons b B => simpa [appendToLast] using ih

theorem mergeSteps_invalid (d : Char) (fs : List Chars) :
    ∀ (A : List Chars) (w : Chars), (∀ f ∈ fs, '=' ∉ f) →
      fs.foldl (mergeStep d) (A ++ [w]) =
        A ++ [w ++ (fs.map (fun f => d :: f)).flatten] := by
  induction fs with
  | nil => intro A w _; simp
  | cons f fs ih =>
    intro A w hf
    have hf0 : '=' ∉ f := hf f (List.mem_cons_self f fs)
    have step : mergeStep d (A ++ [w]) f = A ++ [w ++ d :: f] := by
      have hcf : f.contains '=' = false := by
        simp only [List.contains, Bool.eq_false_iff, ne_eq]
        exact fun hb => hf0 (List.elem_iff.mp hb)
      simp only [mergeStep, hcf, Bool.false_eq_true, if_false]
      cases A with
      | nil => simpa using appendToLast_append [] w (d :: f)
      | cons a A2 => simpa using appendToLast_append (a :: A2) w (d :: f)
    rw [List.foldl_cons, step, ih A (w ++ d :: f)
      (fun g hg => hf g (List.mem_cons_of_mem f hg))]
    simp

/-- C6: in non-strict mode every field-string lacking the pair delimiter is
appended, rejoined with the field delimiter, onto the immediately preceding
valid field-string (already-extended fragments accumulate onto it), and a
run of such fragments with no preceding valid field is dropped; in
particular "dc-name=X:nodes=2000:10:3" parsed with ":" as the outer
delimiter in non-strict mode yields nodes = "2000:10:3". -/
theorem c6_nonstrict_merge (d : Char) (pre fs : List Chars) (v : Chars) :
    ('=' ∈ v → (∀ f ∈ fs, '=' ∉ f) →
      mergeFields d (pre ++ v :: fs) =
        mergeFields d pre ++ [v ++ (fs.map (fun f => d :: f)).flatten]) ∧
    ((∀ f ∈ fs, '=' ∉ f) → mergeFields d fs = []) ∧
    info_to_dict (.str "dc-name=X:nodes=2000:10:3") ':' false =
      .dict [("dc-name".data, "X".data), ("nodes".data, "2000:10:3".data)] := by
  refine ⟨?_, ?_, by decide⟩
  · intro hv hf
    rw [mergeFields, List.foldl_append, List.foldl_cons]
    have step : mergeStep d (List.foldl (mergeStep d) [] pre) v =
        List.foldl (mergeStep d) [] pre ++ [v] := by
      have hcv : v.contains '=' = true := List.elem_iff.mpr hv
      simp only [mergeStep, hcv, if_true]
    rw [step]
    exact mergeSteps_invalid d fs (List.foldl (mergeStep d) [] pre) v hf
  · intro hf
    induction fs with
    | nil => rfl
    | cons f fs ih =>
      have hf0 : '=' ∉ f := hf f (List.mem_cons_self f fs)
      have hstep : mergeStep d [] f = [] := by
        have hcf : f.contains '=' = false := by
          simp only [List.contains, Bool.eq_false_iff, ne_eq]
          exact fun hb => hf0 (List.elem_iff.mp hb)
        simp only [mergeStep, hcf, Bool.false_eq_true, if_false]
      rw [mergeFields, List.foldl_cons, hstep]
      exact ih (fun g hg => hf g (List.mem_cons_of_mem f hg))

/-- C6 witness: the merge conjunct applied at the literal fragments of
"dc-name=X:nodes=2000:10:3" split on ":", and the drop conjunct at a
fragment list with no valid field. -/
theorem c6_nonstrict_merge_witness :
    mergeFields ':' (["dc-name=X".data] ++ "nodes=2000".data :: ["10".data, "3".data]) =
      mergeFields ':' ["dc-name=X".data] ++
        ["nodes=2000".data ++ ((["10".data, "3".data]).map (fun f => ':' :: f)).flatten] ∧
    mergeFields ':' ["10".data, "3".data] = [] := by
  constructor
  · exact (c6_nonstrict_merge ':' ["dc-name=X".data] ["10".data, "3".data]
      "nodes=2000".data).1 (by decide) (by decide)
  · exact (c6_nonstrict_merge ':' [] ["10".data, "3".data] []).2.1 (by decide)

theorem splitOnChar_joinWith {d : Char} (x : Chars) (xs : List Chars)
    (hx : d ∉ x) (hxs : ∀ f ∈ xs, d ∉ f) :
    splitOnChar d (joinWith d (x :: xs)) = x :: xs := by
  induction xs generalizing x with
  | nil => exact splitOnChar_not_mem hx
  | cons y ys ih =>
    have : joinWith d (x :: y :: ys) = x ++ d :: joinWith d (y :: ys) := rfl
    rw [this, splitOnChar_append _ hx,
      ih y (hxs y (List.mem_cons_self y ys))
        (fun f hf => hxs f (List.mem_cons_of_mem y hf))]

theorem mapM_loop_tupleSecond (k : Chars) (vs : List Chars) :
    ∀ acc, List.mapM.loop tupleSecond (vs.map (fun v => [k, v])) acc =
      some (acc.reverse ++ vs) := by
  induction vs with
  | nil => intro acc; simp [List.mapM.loop]
  | cons v vs ih =>
    intro acc
    simp [List.mapM.loop, tupleSecond, ih]

theorem mapM_tupleSecond_pairs (k : Chars) (vs : List Chars) :
    List.mapM tupleSecond (vs.map (fun v => [k, v])) = some vs := by
  simpa [List.mapM] using mapM_loop_tupleSecond k vs []

theorem groupRunsGo_uniform (key : Chars) (us : List (List Chars))
    (h : ∀ u ∈ us, tupleFirst u = key) :
    ∀ acc, groupRunsGo key acc us = [acc.reverse ++ us] := by
  induction us with
  | nil => intro acc; simp [groupRunsGo]
  | cons u us ih =>
    intro acc
    have hu : tupleFirst u = key := h u (List.mem_cons_self u us)
    rw [groupRunsGo, if_pos (by simp [hu])]
    rw [ih (fun w hw => h w (List.mem_cons_of_mem u hw)) (u :: acc)]
    simp

theorem joinWith_field_ne_nil (d : Char) (k v0 : Chars) (fs : List Chars) :
    joinWith d ((k ++ '=' :: v0) :: fs) ≠ [] := by
  cases fs with
  | nil =>
    show k ++ '=' :: v0 ≠ []
    cases k <;> simp
  | cons f fs =>
    show k ++ '=' :: v0 ++ d :: joinWith d (f :: fs) ≠ []
    cases k <;> simp

/-- C3: duplicate keys coalesce only when the fields sharing the key are
consecutive: a maximal run of consecutive fields with key k maps k to the
comma-join of all of the run's values sorted lexicographically when the run
has more than one member (duplicates preserved: "a=1;a=1" yields "1,1" and
"a=1;a=2" yields "1,2"), and to the single value unwrapped otherwise;
non-adjacent fields with the same key are not coalesced — a later run
overwrites the entry ("a=1;b=2;a=3" yields a = "3"). -/
theorem c3_duplicate_key_coalescing (d : Char) (k : Chars) (vs : List Chars) :
    (vs ≠ [] → d ≠ '=' → d ∉ k → '=' ∉ k → (∀ v ∈ vs, d ∉ v ∧ '=' ∉ v) →
      info_to_dict (.str (String.mk (joinWith d (vs.map (fun v => k ++ '=' :: v)))))
          d true =
        .dict [(k, if vs.length > 1 then joinWith ',' (sortChars vs)
          else vs.headD [])]) ∧
    info_to_dict (.str "a=1;a=2") ';' true = .dict [("a".data, "1,2".data)] ∧
    info_to_dict (.str "a=1;a=1") ';' true = .dict [("a".data, "1,1".data)] ∧
    info_to_dict (.str "a=1;b=2;a=3") ';' true =
      .dict [("a".data, "3".data), ("b".data, "2".data)] := by
  refine ⟨?_, by decide, by decide, by decide⟩
  intro hne hd hk1 hk2 hv
  obtain ⟨v0, vrest, rfl⟩ : ∃ v0 vrest, vs = v0 :: vrest := by
    cases vs with
    | nil => exact absurd rfl hne
    | cons a l => exact ⟨a, l, rfl⟩
  have hfield : ∀ v ∈ v0 :: vrest, d ∉ k ++ '=' :: v := by
    intro v hvm hmem
    rcases List.mem_append.mp hmem with h1 | h1
    · exact hk1 h1
    · rcases List.mem_cons.mp h1 with h2 | h2
      · exact hd h2
      · exact (hv v hvm).1 h2
  have hsplit : splitOnChar d (joinWith d ((v0 :: vrest).map (fun v => k ++ '=' :: v))) =
      (v0 :: vrest).map (fun v => k ++ '=' :: v) := by
    rw [List.map_cons]
    exact splitOnChar_joinWith _ _ (hfield v0 (List.mem_cons_self v0 vrest))
      (by
        intro f hf
        rcases List.mem_map.mp hf with ⟨v, hvm, rfl⟩
        exact hfield v (List.mem_cons_of_mem v0 hvm))
  have htuples : ((v0 :: vrest).map (fun v => k ++ '=' :: v)).map
      (fun sp => splitOnChar '=' sp) = (v0 :: vrest).map (fun v => [k, v]) := by
    rw [List.map_map]
    refine List.map_eq_map_iff.mpr ?_
    intro v hvm
    show splitOnChar '=' (k ++ '=' :: v) = [k, v]
    rw [splitOnChar_append _ hk2, splitOnChar_not_mem (hv v hvm).2]
  have hjoin_ne : joinWith d ((v0 :: vrest).map (fun v => k ++ '=' :: v)) ≠ [] := by
    rw [List.map_cons]
    exact joinWith_field_ne_nil d k v0 _
  rw [info_to_dict_str, if_neg (by simpa [List.isEmpty_iff] using hjoin_ne)]
  simp only [infoToDictCore, if_true, hsplit, htuples]
  have hgr : groupRuns ((v0 :: vrest).map (fun v => [k, v])) =
      [(v0 :: vrest).map (fun v => [k, v])] := by
    rw [List.map_cons]
    refine Eq.trans (groupRunsGo_uniform k (vrest.map (fun v => [k, v]))
      (fun u hu => ?_) [[k, v0]]) (by simp)
    rcases List.mem_map.mp hu with ⟨v, hvm, rfl⟩
    rfl
  rw [hgr]
  simp only [List.foldl_cons, List.foldl_nil, runValue, mapM_tupleSecond_pairs]
  simp [dictSet, tupleFirst]

/-- C3 witness: the run conjunct applied at key "a" with the adjacent values
["1", "2"], whose record maps "a" to the sorted comma-join. -/
theorem c3_duplicate_key_coalescing_witness :
    info_to_dict (.str (String.mk (joinWith ';'
        ((["1".data, "2".data]).map (fun v => "a".data ++ '=' :: v))))) ';' true =
      .dict [("a".data, if (["1".data, "2".data]).length > 1
        then joinWith ',' (sortChars ["1".data, "2".data])
        else (["1".data, "2".data]).headD [])] :=
  (c3_duplicate_key_coalescing ';' "a".data ["1".data, "2".data]).1
    (by decide) (by decide) (by decide) (by decide) (by decide)

/-- C3 counterexample: fields sharing a key that are not adjacent are not
coalesced: "a=1;b=2;a=3" yields a = "3" (the later group overwrites the
earlier entry), not the sorted comma-join "1,3" of all values of the key. -/
theorem c3_counterexample :
    info_to_dict (.str "a=1;b=2;a=3") ';' true =
      .dict [("a".data, "3".data), ("b".data, "2".data)] ∧
    ("3".data : Chars) ≠ "1,3".data := ⟨by decide, by decide⟩

/-- The visible (non-escape) tokens of a frame, in order. -/
def visTokens (s : Chars) : List Chars :=
  (group_output s).filter (fun t => !isEscTok t)

theorem pull_cons (x : Chars) (xs : List Chars) :
    NextStream.pull ⟨[], none, x :: xs⟩ = some (x, ⟨[], none, xs⟩) := rfl

theorem pull_nil : NextStream.pull ⟨[], none, []⟩ = none := rfl

theorem innerWalk_sync (pg : Chars) (hpg : isEscTok pg = false) :
    ∀ (es : List Chars) (ns : List Chars), (∀ t ∈ es, isEscTok t = true) →
      innerWalk pg false ⟨[], none, es ++ pg :: ns⟩ =
        (es.flatten ++ pg, false, ⟨[], none, ns⟩) := by
  intro es
  induction es with
  | nil =>
    intro ns _
    rw [innerWalk.eq_def]
    simp only [List.nil_append, pull_cons]
    by_cases hnl : pg = ['\n']
    · subst hnl
      simp [hpg]
    · simp [hpg, hnl]
  | cons e es ih =>
    intro ns hesc
    have he : isEscTok e = true := hesc e (List.mem_cons_self e es)
    have ih2 := ih ns (fun t ht => hesc t (List.mem_cons_of_mem e ht))
    rw [innerWalk.eq_def]
    simp only [List.cons_append, pull_cons]
    simp [he, ih2]

theorem filter_vis_decomp :
    ∀ (N : List Chars) (v : Chars) (vs : List Chars),
      N.filter (fun t => !isEscTok t) = v :: vs →
      ∃ es N2, N = es ++ v :: N2 ∧ (∀ t ∈ es, isEscTok t = true) ∧
        N2.filter (fun t => !isEscTok t) = vs := by
  intro N
  induction N with
  | nil => intro v vs h; simp at h
  | cons t N ih =>
    intro v vs h
    by_cases ht : isEscTok t
    · rw [List.filter_cons, if_neg (by simp [ht])] at h
      obtain ⟨es, N2, hN, hesc, hf⟩ := ih v vs h
      refine ⟨t :: es, N2, by rw [hN]; rfl, ?_, hf⟩
      intro u hu
      rcases List.mem_cons.mp hu with rfl | hu2
      · exact ht
      · exact hesc u hu2
    · rw [List.filter_cons, if_pos (by simp [ht])] at h
      obtain ⟨rfl, hf⟩ : t = v ∧ N.filter (fun t => !isEscTok t) = vs := by
        constructor
        · exact (List.cons.injEq _ _ _ _ ▸ h).1
        · exact (List.cons.injEq _ _ _ _ ▸ h).2
      exact ⟨[], N, rfl, by simp, hf⟩

theorem outerWalk_sync :
    ∀ (P N : List Chars),
      P.filter (fun t => !isEscTok t) = N.filter (fun t => !isEscTok t) →
      ∃ pre post, N = pre ++ post ∧ (∀ t ∈ post, isEscTok t = true) ∧
        outerWalk false P ⟨[], none, N⟩ = (pre.flatten, false, ⟨[], none, post⟩) := by
  intro P
  induction P with
  | nil =>
    intro N h
    refine ⟨[], N, rfl, ?_, rfl⟩
    intro t ht
    have hnil : N.filter (fun t => !isEscTok t) = [] := h.symm
    have := List.filter_eq_nil_iff.mp hnil t ht
    simpa using this
  | cons p P ih =>
    intro N h
    by_cases hp : isEscTok p
    · rw [List.filter_cons, if_neg (by simp [hp])] at h
      obtain ⟨pre, post, hN, hesc, houter⟩ := ih N h
      exact ⟨pre, post, hN, hesc, by simpa [outerWalk, hp] using houter⟩
    · rw [List.filter_cons, if_pos (by simp [hp])] at h
      obtain ⟨es, N2, hN, hesc, hf⟩ := filter_vis_decomp N p _ h.symm
      obtain ⟨pre2, post, hN2, hesc2, houter2⟩ := ih N2 hf.symm
      refine ⟨es ++ p :: pre2, post, ?_, hesc2, ?_⟩
      · rw [hN, hN2]; simp
      · rw [hN]
        have hinner := innerWalk_sync p (Bool.eq_false_iff.mpr hp) es N2 hesc
        simp only [outerWalk, hp, Bool.false_eq_true, if_false, hinner, houter2]
        simp

/-- C8 (amended): when the two frames' visible token sequences are identical
and the current frame's token stream does not end in an escape token, the
diff emits the current frame unchanged — no highlight is opened (this covers
diffing a frame against itself and frames differing only in escape-sequence
content); diffing "abc" against "abd" highlights exactly the third
character. Trailing escape tokens are the exception: the trailing loop
highlights any remaining non-space, non-newline token, escape or not. -/
theorem c8_diff_highlight (prev out : Chars) :
    (visTokens prev = visTokens out →
      (∀ t, (group_output out).getLast? = some t → isEscTok t = false) →
      diffOutput prev out = out) ∧
    diffOutput ['a', 'b', 'c'] ['a', 'b', 'd'] =
      ['a', 'b'] ++ inverseSeq ++ ['d'] ++ resetSeq := by
  constructor
  · intro hvis htrail
    obtain ⟨pre, post, hN, hesc, houter⟩ :=
      outerWalk_sync (group_output prev) (group_output out) hvis
    have hpost : post = [] := by
      by_contra hne
      have hlastN : (group_output out).getLast? = some (post.getLast hne) := by
        rw [hN, List.getLast?_append, List.getLast?_eq_getLast _ hne]
        rfl
      have h1 := htrail _ hlastN
      have h2 := hesc _ (List.getLast_mem hne)
      rw [h1] at h2
      exact absurd h2 (by simp)
    subst hpost
    have hpre : pre = group_output out := by simpa using hN.symm
    have htail : tailWalk false ⟨[], none, []⟩ = ([], false) := by
      rw [tailWalk.eq_def, pull_nil]
    simp only [diffOutput, houter, htail]
    simp [hpre, group_output_flatten]
  · simp [diffOutput, outerWalk, innerWalk, tailWalk, NextStream.pull, group_output,
      takeEsc, isEscTok, escChar, inverseSeq, resetSeq]

/-- C8 counterexample: diffing the frame "\x1bm" (one escape token) against
itself wraps the trailing escape token in the inverse-video pair, so a
self-diff is not free of highlight markers. -/
theorem c8_counterexample :
    diffOutput [escChar, 'm'] [escChar, 'm'] =
      inverseSeq ++ [escChar, 'm'] ++ resetSeq ∧
    diffOutput [escChar, 'm'] [escChar, 'm'] ≠ [escChar, 'm'] := by
  have h : diffOutput [escChar, 'm'] [escChar, 'm'] =
      inverseSeq ++ [escChar, 'm'] ++ resetSeq := by
    simp [diffOutput, outerWalk, innerWalk, tailWalk, NextStream.pull, group_output,
      takeEsc, isEscTok, escChar, inverseSeq, resetSeq]
  exact ⟨h, by rw [h]; decide⟩

/-- C8 witness: the amended theorem applied to two frames that differ only
in escape-sequence content ("\x1b1m" vs "\x1b2m" styling around the same
visible character): the diff reproduces the current frame unchanged. -/
theorem c8_diff_highlight_witness :
    visTokens [escChar, '1', 'm', 'a'] = visTokens [escChar, '2', 'm', 'a'] ∧
    diffOutput [escChar, '1', 'm', 'a'] [escChar, '2', 'm', 'a'] =
      [escChar, '2', 'm', 'a'] := by
  have hvis : visTokens [escChar, '1', 'm', 'a'] = visTokens [escChar, '2', 'm', 'a'] := by
    simp [visTokens, group_output, takeEsc, escChar, isEscTok]
  refine ⟨hvis, (c8_diff_highlight [escChar, '1', 'm', 'a'] [escChar, '2', 'm', 'a']).1
    hvis ?_⟩
  intro t ht
  have hgo : group_output [escChar, '2', 'm', 'a'] = [[escChar, '2', 'm'], ['a']] := by
    simp [group_output, takeEsc, escChar]
  rw [hgo] at ht
  simp at ht
  subst ht
  decide
